import Mathlib

/-!
Shallow embedding of `src/main.rs` of the parallel-sorting-by-regular-sampling
repository (PSRS), together with theorems settling the claims C1-C10.

Machine integers (`usize`, `u32`) are modelled as `Nat`.  Every Rust operation
that can panic (indexing, slicing, `usize` subtraction underflow, and — for the
recursive quicksort — fuel exhaustion) is modelled in `Option`, where `none`
models a panic/abort of the program.
-/

namespace PSRS

/-- Source: `const ARRAY_LEN: usize = 10_000;`. -/
def ARRAY_LEN : Nat := 10000

/-- Source: `const P: usize = 10;` (the number of worker threads / partitions). -/
def P : Nat := 10

/-- Source (inside `psrs`): `let block_len = ARRAY_LEN / P;`. -/
def block_len : Nat := ARRAY_LEN / P

/-- Source (inside `psrs`): `const OMEGA: usize = ARRAY_LEN / (P * P);`. -/
def OMEGA : Nat := ARRAY_LEN / (P * P)

/-- Model of `data.swap(i, j)`. -/
def swapL (data : List Nat) (i j : Nat) : List Nat :=
  (data.set i (data.getD j 0)).set j (data.getD i 0)

/-- The `for j in low..high` loop of `thread_quicksort_partition`: `pivot` is
`data[high]`, `i` is the store index of the Lomuto scheme, `j` the scan index. -/
def partLoop (pivot high : Nat) (data : List Nat) (i j : Nat) : List Nat × Nat :=
  if j < high then
    if data.getD j 0 < pivot then partLoop pivot high (swapL data i j) (i + 1) (j + 1)
    else partLoop pivot high data i (j + 1)
  else (data, i)
termination_by high - j

/-- Source `thread_quicksort_partition`: Lomuto partition with pivot `data[high]`;
returns the rearranged data and the final pivot position `i`. -/
def thread_quicksort_partition (data : List Nat) (low high : Nat) : List Nat × Nat :=
  let pivot := data.getD high 0
  let r := partLoop pivot high data low low
  (swapL r.1 r.2 high, r.2)

/-- Source `thread_quicksort`, embedded with explicit recursion fuel: the Rust
function recurses on `(low, pivot - 1)` (guarded by `pivot > low`) and on
`(pivot + 1, high)`; `none` models fuel exhaustion (shown unreachable for fuel
larger than the interval width). -/
def thread_quicksort : Nat → List Nat → Nat → Nat → Option (List Nat)
  | 0, _, _, _ => none
  | fuel + 1, data, low, high =>
    if low < high then
      let r := thread_quicksort_partition data low high
      match (if low < r.2 then thread_quicksort fuel r.1 low (r.2 - 1) else some r.1) with
      | none => none
      | some d1 => thread_quicksort fuel d1 (r.2 + 1) high
    else some data

/-- Option-valued map over a list, failing as soon as one element fails
(the value computed agrees with `List.mapM` over `Option`). -/
def mapOptM (f : α → Option β) : List α → Option (List β)
  | [] => some []
  | a :: as =>
    match f a with
    | none => none
    | some b =>
      match mapOptM f as with
      | none => none
      | some bs => some (b :: bs)

/-- Source: `let start_idx = thread_id * block_len;`. -/
def sliceStart (tid : Nat) : Nat := tid * block_len

/-- Source: `let end_idx = if thread_id == P - 1 { data.len() } else { (thread_id + 1) * block_len };`. -/
def sliceEnd (data : List Nat) (tid : Nat) : Nat :=
  if tid = P - 1 then data.length else (tid + 1) * block_len

/-- Model of the Rust slice `&mut data[start_idx..end_idx]`: `none` models the
panic when the range is invalid for `data`. -/
def sliceBlock (data : List Nat) (tid : Nat) : Option (List Nat) :=
  if sliceStart tid ≤ sliceEnd data tid ∧ sliceEnd data tid ≤ data.length then
    some ((data.drop (sliceStart tid)).take (sliceEnd data tid - sliceStart tid))
  else none

/-- The block-slicing loop `for thread_id in 0..P` of `psrs` (executed on the
spawning thread): the `P` chunks handed to the workers. -/
def mkBlocks (data : List Nat) : Option (List (List Nat)) :=
  mapOptM (sliceBlock data) (List.range P)

/-- Model of the worker call `thread_quicksort(chunk, 0, chunk.len() - 1)`:
on a zero-length chunk `chunk.len() - 1` underflows `usize` and the partition
then indexes out of bounds, modelled as `none`. -/
def sortBlock (chunk : List Nat) : Option (List Nat) :=
  if chunk.length = 0 then none
  else thread_quicksort chunk.length chunk 0 (chunk.length - 1)

/-- Phase 1 of `psrs`: slice the input into `P` blocks and locally sort each. -/
def phase1 (data : List Nat) : Option (List (List Nat)) :=
  match mkBlocks data with
  | none => none
  | some blocks => mapOptM sortBlock blocks

/-- The value of block `tid` when slicing succeeds. -/
def blockVal (data : List Nat) (tid : Nat) : List Nat :=
  (data.drop (sliceStart tid)).take (sliceEnd data tid - sliceStart tid)

/-- Source, phase 2 per worker: `for i in 0..P { let j = i * OMEGA + 1; if j <
chunk.len() { global_samples_ref[thread_id * P + i] = chunk[j]; } }` — the row
of `P` sample slots written by one worker; a slot whose offset is out of range
is *skipped* and keeps its initial value `0`. -/
def sampleBlock (chunk : List Nat) : List Nat :=
  (List.range P).map (fun i => if i * OMEGA + 1 < chunk.length then chunk.getD (i * OMEGA + 1) 0 else 0)

/-- Modelled from the spec's words, for comparison with `sampleBlock` (claim C6):
"position = `min(i*omega + 1, block_len - 1)` where `omega = block_len / P`". -/
def specSampleBlock (chunk : List Nat) : List Nat :=
  (List.range P).map (fun i => chunk.getD (min (i * (chunk.length / P) + 1) (chunk.length - 1)) 0)

/-- Modelled from the spec's words, for comparison with `sliceEnd` (claim C8):
block i covers indices up to "`min((i+1)*⌈N/P⌉, N)`". -/
def specBlockEnd (N i : Nat) : Nat := min ((i + 1) * ((N + P - 1) / P)) N

/-- The `while size > 1` loop of Rust std's (branchless) `slice::binary_search_by`,
which the source calls as `chunk.binary_search(&pivot_val)`:
`base = if cmp == Greater { base } else { mid }; size -= half;`. -/
def binarySearchLoop (data : List Nat) (target : Nat) (base size : Nat) : Nat :=
  if size ≤ 1 then base
  else
    if target < data.getD (base + size / 2) 0 then
      binarySearchLoop data target base (size - size / 2)
    else binarySearchLoop data target (base + size / 2) (size - size / 2)
termination_by size
decreasing_by all_goals omega

/-- Rust std `slice::binary_search` (current branchless implementation): the
loop above started at `base = 0`, `size = len`, then a final comparison at
`base`: `Ok base` on Equal, `Err (base + 1)` on Less, `Err base` on Greater. -/
def binary_search (data : List Nat) (target : Nat) : Except Nat Nat :=
  if data.length = 0 then Except.error 0
  else if data.getD (binarySearchLoop data target 0 data.length) 0 = target then
    Except.ok (binarySearchLoop data target 0 data.length)
  else if data.getD (binarySearchLoop data target 0 data.length) 0 < target then
    Except.error (binarySearchLoop data target 0 data.length + 1)
  else Except.error (binarySearchLoop data target 0 data.length)

/-- Source, phase 3 per worker: `let ind = match chunk.binary_search(&pivot_val)
{ Ok(idx) => idx + 1, Err(idx) => idx };` — the bucket boundary for one pivot. -/
def bucketBoundary (chunk : List Nat) (pivot_val : Nat) : Nat :=
  match binary_search chunk pivot_val with
  | Except.ok idx => idx + 1
  | Except.error idx => idx

/-- The number of elements of `l` that are `≤ p`. -/
def countLe (l : List Nat) (p : Nat) : Nat := l.countP (fun x => decide (x ≤ p))

/-- Source, phase 3 per worker: the partition loop over the pivots followed by
the final `global_partitions_ref[thread_id][P - 1] = chunk[prev..chunk.len()]`;
the Rust slice `chunk[prev..ind]` panics (`none`) if `prev > ind` or
`ind > chunk.len()`. -/
def partitionBlockAux (chunk : List Nat) : List Nat → Nat → Option (List (List Nat))
  | [], prev => if prev ≤ chunk.length then some [chunk.drop prev] else none
  | pivot_val :: rest, prev =>
    let ind := bucketBoundary chunk pivot_val
    if prev ≤ ind ∧ ind ≤ chunk.length then
      match partitionBlockAux chunk rest ind with
      | some parts => some (((chunk.drop prev).take (ind - prev)) :: parts)
      | none => none
    else none

/-- One worker's phase 3: split its sorted chunk into `P` buckets by the pivots. -/
def partitionBlock (chunk : List Nat) (pivots : List Nat) : Option (List (List Nat)) :=
  partitionBlockAux chunk pivots 0

/-- Source, phase 2 pivot collection by thread 0:
`for i in 0..P { pivot_ref[i - 1] = global_samples_ref[i * (global_samples_ref.len() / P)]; }`.
At `i = 0` the index `i - 1` underflows `usize` (`none`); for `i ≥ 1` the store
is modelled with its bounds checks. -/
def collectPivotsFrom (samples : List Nat) (pivots : List Nat) (i : Nat) : Option (List Nat) :=
  if h : i < P then
    if i = 0 then none
    else
      let idx := i * (samples.length / P)
      if i - 1 < pivots.length ∧ idx < samples.length then
        collectPivotsFrom samples (pivots.set (i - 1) (samples.getD idx 0)) (i + 1)
      else none
  else some pivots
termination_by P - i
decreasing_by all_goals omega

/-- The pivot-collection step: the loop above started at `i = 0` on the
`P - 1`-slot pivot array `[0u32; P - 1]`. -/
def collectPivots (samples : List Nat) : Option (List Nat) :=
  collectPivotsFrom samples (List.replicate (P - 1) 0) 0

/-- The strict lexicographic-or-equal order on the heap triples
`(value, source slice index, position in slice)`: `Reverse` of the derived
`Ord` on `(u32, usize, usize)`, as used by the source's `BinaryHeap`. -/
def tripLE (a b : Nat × Nat × Nat) : Bool :=
  a.1 < b.1 || (a.1 = b.1 && (a.2.1 < b.2.1 || (a.2.1 = b.2.1 && a.2.2 ≤ b.2.2)))

/-- `min_heap.pop()`: remove the least triple of the heap (the heap's triples
are pairwise distinct in the reachable states, so the minimum is unique). -/
def popMin : List (Nat × Nat × Nat) → Option ((Nat × Nat × Nat) × List (Nat × Nat × Nat))
  | [] => none
  | a :: rest =>
    match popMin rest with
    | none => some (a, [])
    | some (m, rest') => if tripLE a m then some (a, rest) else some (m, a :: rest')

/-- Source, phase 4 heap initialization of worker `tid`:
`for (partitionIndex, partition) in global_partitions_ref.iter().enumerate() {
  if !partition.is_empty() { min_heap.push(Reverse((partition[thread_id][0], partitionIndex, 0))); } }`.
Note the guard tests the *outer* `Vec<Vec<u32>>` (`partition`), not the
sub-slice `partition[thread_id]`; `partition[thread_id][0]` panics (`none`)
when that sub-slice is empty. -/
def mergeInitAux (tid : Nat) : List (List (List Nat)) → Nat → List (Nat × Nat × Nat) →
    Option (List (Nat × Nat × Nat))
  | [], _, heap => some heap
  | partition :: rest, pIdx, heap =>
    if partition.isEmpty then mergeInitAux tid rest (pIdx + 1) heap
    else if tid < partition.length then
      match partition.getD tid [] with
      | [] => none
      | v :: _ => mergeInitAux tid rest (pIdx + 1) (heap ++ [(v, pIdx, 0)])
    else none

/-- Worker `tid`'s heap after the phase 4 initialization loop. -/
def mergeInit (parts : List (List (List Nat))) (tid : Nat) : Option (List (Nat × Nat × Nat)) :=
  mergeInitAux tid parts 0 []

/-- Total number of elements of bucket `tid` over all blocks. -/
def totalLen (parts : List (List (List Nat))) (tid : Nat) : Nat :=
  (parts.map (fun partition => (partition.getD tid []).length)).sum

/-- Source, phase 4 merge loop of worker `tid`:
`while let Some(Reverse((val, partitionIndex, prevIndex))) = min_heap.pop() {
  final_local_partition.push(val);
  if prevIndex + 1 < global_partitions_ref[partitionIndex][thread_id].len() {
    min_heap.push(Reverse((global_partitions_ref[partitionIndex][thread_id][prevIndex + 1],
      partitionIndex, prevIndex + 1))); } }`
embedded with recursion fuel (shown sufficient in the theorems). -/
def mergeLoop (parts : List (List (List Nat))) (tid : Nat) :
    Nat → List (Nat × Nat × Nat) → List Nat
  | 0, _ => []
  | fuel + 1, heap =>
    match popMin heap with
    | none => []
    | some ((v, pIdx, prevIndex), rest) =>
      v :: mergeLoop parts tid fuel
        (if prevIndex + 1 < ((parts.getD pIdx []).getD tid []).length
         then rest ++ [(((parts.getD pIdx []).getD tid []).getD (prevIndex + 1) 0, pIdx, prevIndex + 1)]
         else rest)

/-- Worker `tid`'s whole phase 4: heap initialization followed by the k-way
merge; produces `final_local_partition`. -/
def kwayMerge (parts : List (List (List Nat))) (tid : Nat) : Option (List Nat) :=
  match mergeInit parts tid with
  | none => none
  | some heap => some (mergeLoop parts tid (totalLen parts tid + 1) heap)

/-- Phase 2 of `psrs`: assemble the `global_samples` array from the per-block
sample rows, sort it with `thread_quicksort` (thread 0), and collect the
pivots. -/
def phase2 (sortedBlocks : List (List Nat)) : Option (List Nat) :=
  match sortBlock ((sortedBlocks.map sampleBlock).foldr (· ++ ·) []) with
  | none => none
  | some sortedSamples => collectPivots sortedSamples

/-- Phase 5 of `psrs`: each worker writes its merged run into `data` at offset
`partition_lens[0] + ... + partition_lens[tid - 1]`, which concatenates the
runs in bucket order; positions past the total run length keep their old
values, and writing past `data.len()` panics (`none`). -/
def assembleRuns (data : List Nat) (runs : List (List Nat)) : Option (List Nat) :=
  if (runs.foldr (· ++ ·) []).length ≤ data.length then
    some ((runs.foldr (· ++ ·) []) ++ data.drop (runs.foldr (· ++ ·) []).length)
  else none

/-- Phases 3-5 of `psrs`: partition every sorted block by the pivots, k-way
merge each bucket, and assemble. -/
def phase3to5 (data : List Nat) (sortedBlocks : List (List Nat)) (pivots : List Nat) :
    Option (List Nat) :=
  match mapOptM (fun chunk => partitionBlock chunk pivots) sortedBlocks with
  | none => none
  | some parts =>
    match mapOptM (fun tid => kwayMerge parts tid) (List.range P) with
    | none => none
    | some runs => assembleRuns data runs

/-- The whole of `psrs` as one sequential pipeline (the barrier chain makes the
concurrent execution equivalent to this phase order). -/
def psrs (data : List Nat) : Option (List Nat) :=
  match phase1 data with
  | none => none
  | some sortedBlocks =>
    match phase2 sortedBlocks with
    | none => none
    | some pivots => phase3to5 data sortedBlocks pivots

/-- Well-formedness of a merge heap: every triple `(v, i, j)` points into the
sub-slice of bucket `tid` contributed by block `i`, and carries its value. -/
def heapWF (parts : List (List (List Nat))) (tid : Nat) (heap : List (Nat × Nat × Nat)) : Prop :=
  ∀ e ∈ heap, e.2.2 < ((parts.getD e.2.1 []).getD tid []).length ∧
    e.1 = ((parts.getD e.2.1 []).getD tid []).getD e.2.2 0

/-- Number of elements still to be emitted from the heap's source positions. -/
def heapRem (parts : List (List (List Nat))) (tid : Nat) (heap : List (Nat × Nat × Nat)) : Nat :=
  (heap.map (fun e => ((parts.getD e.2.1 []).getD tid []).length - e.2.2)).sum

lemma partLoop_snd_bounds (pivot high : Nat) :
    ∀ n j data i, high ≤ j + n → i ≤ j → j ≤ high →
      i ≤ (partLoop pivot high data i j).2 ∧ (partLoop pivot high data i j).2 ≤ high := by
  intro n
  induction n with
  | zero =>
    intro j data i hn hij hjh
    rw [partLoop]
    have : ¬ j < high := by omega
    simp only [if_neg this]
    omega
  | succ n ih =>
    intro j data i hn hij hjh
    rw [partLoop]
    by_cases hjlt : j < high
    · simp only [if_pos hjlt]
      by_cases hcmp : data.getD j 0 < pivot
      · simp only [if_pos hcmp]
        have h := ih (j + 1) (swapL data i j) (i + 1) (by omega) (by omega) (by omega)
        omega
      · simp only [if_neg hcmp]
        have h := ih (j + 1) data i (by omega) (by omega) (by omega)
        omega
    · simp only [if_neg hjlt]
      omega

lemma thread_quicksort_partition_snd_bounds (data : List Nat) (low high : Nat)
    (h : low ≤ high) :
    low ≤ (thread_quicksort_partition data low high).2 ∧
      (thread_quicksort_partition data low high).2 ≤ high := by
  have := partLoop_snd_bounds (data.getD high 0) high (high - low) low data low
    (by omega) (by omega) h
  simpa [thread_quicksort_partition] using this

/-- Fuel larger than the interval width always suffices for `thread_quicksort`:
each recursive call is on a strictly smaller index interval. -/
lemma thread_quicksort_isSome :
    ∀ fuel data low high, high - low < fuel →
      (thread_quicksort fuel data low high).isSome = true := by
  intro fuel
  induction fuel with
  | zero => intro data low high h; omega
  | succ fuel ih =>
    intro data low high h
    rw [thread_quicksort]
    by_cases hlh : low < high
    · simp only [if_pos hlh]
      have hb := thread_quicksort_partition_snd_bounds data low high (by omega)
      set r := thread_quicksort_partition data low high with hr
      have hinner : (if low < r.2 then thread_quicksort fuel r.1 low (r.2 - 1)
          else some r.1).isSome = true := by
        by_cases hlp : low < r.2
        · simp only [if_pos hlp]
          exact ih r.1 low (r.2 - 1) (by omega)
        · simp [if_neg hlp]
      obtain ⟨d1, hd1⟩ := Option.isSome_iff_exists.mp hinner
      rw [hd1]
      exact ih d1 (r.2 + 1) high (by omega)
    · simp [if_neg hlh]

lemma mapOptM_eq_none_of_mem {f : α → Option β} {l : List α} {a : α}
    (ha : a ∈ l) (hfa : f a = none) : mapOptM f l = none := by
  induction l with
  | nil => cases ha
  | cons x xs ih =>
    rw [mapOptM]
    rcases List.mem_cons.mp ha with h | h
    · subst h; rw [hfa]
    · cases hx : f x
      · rfl
      · rw [ih h]

lemma mapOptM_eq_some_map {f : α → Option β} {g : α → β} {l : List α}
    (h : ∀ a ∈ l, f a = some (g a)) : mapOptM f l = some (l.map g) := by
  induction l with
  | nil => rfl
  | cons x xs ih =>
    rw [mapOptM, h x (List.mem_cons_self x xs), ih (fun a ha => h a (List.mem_cons_of_mem x ha))]
    rfl

lemma mapOptM_isSome_iff {f : α → Option β} {l : List α} :
    (mapOptM f l).isSome = true ↔ ∀ a ∈ l, (f a).isSome = true := by
  induction l with
  | nil => simp [mapOptM]
  | cons x xs ih =>
    rw [mapOptM]
    cases hx : f x with
    | none =>
      simp only [Option.isSome_none, Bool.false_eq_true, false_iff]
      intro h
      have := h x (List.mem_cons_self x xs)
      rw [hx] at this
      simp at this
    | some b =>
      cases hxs : mapOptM f xs with
      | none =>
        simp only [Option.isSome_none, Bool.false_eq_true, false_iff]
        intro h
        have : (mapOptM f xs).isSome = true :=
          ih.mpr (fun a ha => h a (List.mem_cons_of_mem x ha))
        rw [hxs] at this
        simp at this
      | some bs =>
        simp only [Option.isSome_some, true_iff]
        intro a ha
        rcases List.mem_cons.mp ha with h | h
        · subst h; simp [hx]
        · have : (mapOptM f xs).isSome = true := by simp [hxs]
          exact ih.mp this a h

lemma sliceBlock_eq_some {data : List Nat} (h : 9000 ≤ data.length) {tid : Nat}
    (ht : tid ∈ List.range P) : sliceBlock data tid = some (blockVal data tid) := by
  have ht' : tid < 10 := by simpa [P] using List.mem_range.mp ht
  rw [sliceBlock, blockVal, if_pos]
  constructor
  · rw [sliceStart, sliceEnd]
    by_cases h9 : tid = P - 1
    · rw [if_pos h9]
      have : tid = 9 := by simpa [P] using h9
      subst this
      simp only [block_len, ARRAY_LEN, P]
      omega
    · rw [if_neg h9]
      simp only [block_len, ARRAY_LEN, P]
      omega
  · rw [sliceEnd]
    by_cases h9 : tid = P - 1
    · rw [if_pos h9]
    · rw [if_neg h9]
      simp only [block_len, ARRAY_LEN, P]
      have : tid < 9 := by
        rcases Nat.lt_or_ge tid 9 with h' | h'
        · exact h'
        · exfalso; exact h9 (by simp [P]; omega)
      omega

lemma mkBlocks_eq_some {data : List Nat} (h : 9000 ≤ data.length) :
    mkBlocks data = some ((List.range P).map (blockVal data)) :=
  mapOptM_eq_some_map (fun _ ht => sliceBlock_eq_some h ht)

lemma mkBlocks_eq_none {data : List Nat} (h : data.length < 9000) :
    mkBlocks data = none := by
  apply mapOptM_eq_none_of_mem (a := 9)
  · simp [P]
  · rw [sliceBlock, if_neg]
    rw [sliceStart, sliceEnd]
    simp only [P, block_len, ARRAY_LEN]
    norm_num
    omega

lemma blockVal_length {data : List Nat} (h : 9000 ≤ data.length) {tid : Nat}
    (ht : tid < P) :
    (blockVal data tid).length = if tid = P - 1 then data.length - 9000 else 1000 := by
  rw [blockVal, List.length_take, List.length_drop, sliceStart, sliceEnd]
  have ht' : tid < 10 := by simpa [P] using ht
  by_cases h9 : tid = P - 1
  · rw [if_pos h9, if_pos h9]
    have : tid = 9 := by simpa [P] using h9
    subst this
    simp only [block_len, ARRAY_LEN, P]
    omega
  · rw [if_neg h9, if_neg h9]
    have : tid < 9 := by
      rcases Nat.lt_or_ge tid 9 with h' | h'
      · exact h'
      · exfalso; exact h9 (by simp [P]; omega)
    simp only [block_len, ARRAY_LEN, P]
    omega

lemma sortBlock_isSome_iff {chunk : List Nat} :
    (sortBlock chunk).isSome = true ↔ chunk ≠ [] := by
  rw [sortBlock]
  by_cases h : chunk.length = 0
  · simp [if_pos h, List.length_eq_zero.mp h]
  · rw [if_neg h]
    have : (thread_quicksort chunk.length chunk 0 (chunk.length - 1)).isSome = true :=
      thread_quicksort_isSome _ _ _ _ (by omega)
    simp [this]
    intro hc
    exact h (by simp [hc])

/-- The block phase succeeds exactly when the input is long enough that the
slicing is in range (`9000 ≤ N`) and the last block `data[9000..N]` is
non-empty (`9001 ≤ N`). -/
lemma phase1_isSome_iff {data : List Nat} :
    (phase1 data).isSome = true ↔ 9001 ≤ data.length := by
  rw [phase1]
  rcases Nat.lt_or_ge data.length 9000 with h | h
  · rw [mkBlocks_eq_none h]
    simp only [Option.isSome_none, Bool.false_eq_true, false_iff]
    omega
  · rw [mkBlocks_eq_some h]
    rw [mapOptM_isSome_iff]
    have h99 : (9 : Nat) = P - 1 := by norm_num [P]
    constructor
    · intro hall
      have h9 : blockVal data 9 ∈ (List.range P).map (blockVal data) := by
        apply List.mem_map_of_mem
        simp [P]
      have hne := (sortBlock_isSome_iff).mp (hall _ h9)
      have hlen : (blockVal data 9).length ≠ 0 := by
        intro hz
        exact hne (List.length_eq_zero.mp hz)
      rw [blockVal_length h (by simp [P]), if_pos h99] at hlen
      omega
    · intro h1 b hb
      rw [sortBlock_isSome_iff]
      obtain ⟨tid, htid, rfl⟩ := List.mem_map.mp hb
      have htid' : tid < P := by simpa using List.mem_range.mp htid
      intro hnil
      have hz : (blockVal data tid).length = 0 := by simp [hnil]
      rw [blockVal_length h htid'] at hz
      by_cases h9 : tid = P - 1
      · rw [if_pos h9] at hz; omega
      · rw [if_neg h9] at hz; omega

lemma countLe_le_length (l : List Nat) (p : Nat) : countLe l p ≤ l.length :=
  List.countP_le_length _

lemma getD_le_of_lt_countLe {l : List Nat} {p : Nat} (hs : l.Sorted (· ≤ ·)) :
    ∀ k, k < countLe l p → l.getD k 0 ≤ p := by
  induction l with
  | nil => intro k hk; simp [countLe] at hk
  | cons a t ih =>
    have ha := (List.sorted_cons.mp hs).1
    have ht := (List.sorted_cons.mp hs).2
    intro k hk
    rw [countLe, List.countP_cons] at hk
    by_cases hap : a ≤ p
    · simp only [decide_eq_true hap, if_true] at hk
      cases k with
      | zero => simpa using hap
      | succ k' =>
        rw [List.getD_cons_succ]
        exact ih ht k' (by rw [countLe]; omega)
    · have hzero : t.countP (fun x => decide (x ≤ p)) = 0 := by
        rw [List.countP_eq_zero]
        intro x hx
        simp only [decide_eq_true_eq]
        have := ha x hx
        omega
      simp [decide_eq_false hap, hzero] at hk

lemma lt_getD_of_countLe_le {l : List Nat} {p : Nat} (hs : l.Sorted (· ≤ ·)) :
    ∀ k, countLe l p ≤ k → k < l.length → p < l.getD k 0 := by
  induction l with
  | nil => intro k _ hk; simp at hk
  | cons a t ih =>
    have ha := (List.sorted_cons.mp hs).1
    have ht := (List.sorted_cons.mp hs).2
    intro k hck hk
    rw [countLe, List.countP_cons] at hck
    by_cases hap : a ≤ p
    · simp only [decide_eq_true hap, if_true] at hck
      cases k with
      | zero => omega
      | succ k' =>
        rw [List.getD_cons_succ]
        exact ih ht k' (by rw [countLe]; omega) (by simpa using hk)
    · cases k with
      | zero => simpa using Nat.lt_of_not_le hap
      | succ k' =>
        rw [List.getD_cons_succ]
        have hk' : k' < t.length := by simpa using hk
        have hmem : t.getD k' 0 ∈ t := by
          rw [List.getD_eq_getElem t 0 hk']
          exact List.getElem_mem hk'
        have := ha _ hmem
        omega

lemma binarySearchLoop_eq {data : List Nat} {target : Nat} (hs : data.Sorted (· ≤ ·)) :
    ∀ size base, 1 ≤ size → base + size ≤ data.length →
      base ≤ countLe data target - 1 → countLe data target - 1 < base + size →
      binarySearchLoop data target base size = countLe data target - 1 := by
  intro size
  induction size using Nat.strong_induction_on with
  | _ size ih =>
    intro base h1 h2 h3 h4
    rw [binarySearchLoop]
    by_cases hsz : size ≤ 1
    · rw [if_pos hsz]
      omega
    · rw [if_neg hsz]
      have hhalf : 1 ≤ size / 2 ∧ size / 2 < size := by omega
      have hmidlen : base + size / 2 < data.length := by omega
      by_cases hcmp : target < data.getD (base + size / 2) 0
      · rw [if_pos hcmp]
        have hcle : countLe data target ≤ base + size / 2 := by
          by_contra hlt
          have := getD_le_of_lt_countLe (p := target) hs (base + size / 2) (by omega)
          omega
        exact ih (size - size / 2) (by omega) base (by omega) (by omega) (by omega)
          (by omega)
      · rw [if_neg hcmp]
        have hclt : base + size / 2 < countLe data target := by
          by_contra hge
          have := lt_getD_of_countLe_le (p := target) hs (base + size / 2) (by omega) hmidlen
          omega
        exact ih (size - size / 2) (by omega) (base + size / 2) (by omega) (by omega)
          (by omega) (by omega)

/-- On a sorted chunk the boundary computed from Rust's `binary_search` equals
the number of chunk elements `≤ pivot`, duplicates included. -/
lemma bucketBoundary_eq (chunk : List Nat) (pivot_val : Nat)
    (hs : chunk.Sorted (· ≤ ·)) : bucketBoundary chunk pivot_val = countLe chunk pivot_val := by
  have hok : ∀ i : Nat, (match (Except.ok i : Except Nat Nat) with
      | Except.ok idx => idx + 1 | Except.error idx => idx) = i + 1 := fun _ => rfl
  have herr : ∀ i : Nat, (match (Except.error i : Except Nat Nat) with
      | Except.ok idx => idx + 1 | Except.error idx => idx) = i := fun _ => rfl
  unfold bucketBoundary
  by_cases h0 : chunk.length = 0
  · rw [binary_search, if_pos h0, herr]
    have : chunk = [] := List.length_eq_zero.mp h0
    subst this
    simp [countLe]
  · set c := countLe chunk pivot_val with hc
    have hcl : c ≤ chunk.length := countLe_le_length _ _
    have hbase : binarySearchLoop chunk pivot_val 0 chunk.length = c - 1 :=
      binarySearchLoop_eq hs chunk.length 0 (by omega) (by omega) (by omega) (by omega)
    by_cases hcz : c = 0
    · have hgt : pivot_val < chunk.getD (c - 1) 0 := by
        apply lt_getD_of_countLe_le hs
        · omega
        · omega
      rw [binary_search, if_neg h0, hbase, if_neg (by omega), if_neg (by omega), herr]
      omega
    · have hle : chunk.getD (c - 1) 0 ≤ pivot_val := getD_le_of_lt_countLe hs _ (by omega)
      by_cases heq : chunk.getD (c - 1) 0 = pivot_val
      · rw [binary_search, if_neg h0, hbase, if_pos heq, hok]
        omega
      · rw [binary_search, if_neg h0, hbase, if_neg heq, if_pos (by omega), herr]
        omega

lemma collectPivots_eq_none (samples : List Nat) : collectPivots samples = none := by
  rw [collectPivots, collectPivotsFrom]
  have h : (0 : Nat) < P := by norm_num [P]
  rw [dif_pos h, if_pos rfl]

lemma tripLE_true_le {a b : Nat × Nat × Nat} (h : tripLE a b = true) : a.1 ≤ b.1 := by
  rw [tripLE] at h
  simp only [Bool.or_eq_true, Bool.and_eq_true, decide_eq_true_eq] at h
  omega

lemma tripLE_false_le {a b : Nat × Nat × Nat} (h : tripLE a b = false) : b.1 ≤ a.1 := by
  rw [tripLE] at h
  simp only [Bool.or_eq_false_iff, Bool.and_eq_false_iff, decide_eq_false_iff_not] at h
  omega

lemma popMin_eq_none_iff {h : List (Nat × Nat × Nat)} : popMin h = none ↔ h = [] := by
  cases h with
  | nil => simp [popMin]
  | cons a rest =>
    rw [popMin]
    cases hr : popMin rest with
    | none => simp
    | some p =>
      obtain ⟨m, rest'⟩ := p
      by_cases ht : tripLE a m
      · simp [ht]
      · simp [ht]

lemma popMin_perm {h : List (Nat × Nat × Nat)} {m : Nat × Nat × Nat}
    {rest : List (Nat × Nat × Nat)} (hp : popMin h = some (m, rest)) :
    h.Perm (m :: rest) := by
  induction h generalizing m rest with
  | nil => simp [popMin] at hp
  | cons a t ih =>
    cases hr : popMin t with
    | none =>
      simp only [popMin, hr] at hp
      have ht : t = [] := popMin_eq_none_iff.mp hr
      subst ht
      obtain ⟨rfl, rfl⟩ : a = m ∧ ([] : List (Nat × Nat × Nat)) = rest := by
        simpa using hp
      exact List.Perm.refl _
    | some p =>
      obtain ⟨m', rest'⟩ := p
      simp only [popMin, hr] at hp
      by_cases htle : tripLE a m'
      · rw [if_pos htle] at hp
        obtain ⟨rfl, rfl⟩ : a = m ∧ t = rest := by simpa using hp
        exact List.Perm.refl _
      · rw [if_neg htle] at hp
        obtain ⟨rfl, rfl⟩ : m' = m ∧ a :: rest' = rest := by simpa using hp
        exact ((ih hr).cons a).trans (List.Perm.swap m' a rest')

lemma popMin_min {h : List (Nat × Nat × Nat)} {m : Nat × Nat × Nat}
    {rest : List (Nat × Nat × Nat)} (hp : popMin h = some (m, rest)) :
    ∀ e ∈ h, m.1 ≤ e.1 := by
  induction h generalizing m rest with
  | nil => simp [popMin] at hp
  | cons a t ih =>
    cases hr : popMin t with
    | none =>
      simp only [popMin, hr] at hp
      have ht : t = [] := popMin_eq_none_iff.mp hr
      subst ht
      obtain ⟨rfl, rfl⟩ : a = m ∧ ([] : List (Nat × Nat × Nat)) = rest := by
        simpa using hp
      intro e he
      rcases List.mem_cons.mp he with rfl | he'
      · omega
      · simp at he'
    | some p =>
      obtain ⟨m', rest'⟩ := p
      simp only [popMin, hr] at hp
      have ihm := ih hr
      by_cases htle : tripLE a m'
      · rw [if_pos htle] at hp
        obtain ⟨rfl, rfl⟩ : a = m ∧ t = rest := by simpa using hp
        have ham : a.1 ≤ m'.1 := tripLE_true_le htle
        intro e he
        rcases List.mem_cons.mp he with rfl | he'
        · omega
        · have := ihm e he'
          omega
      · rw [if_neg htle] at hp
        obtain ⟨rfl, rfl⟩ : m' = m ∧ a :: rest' = rest := by simpa using hp
        have hma : m'.1 ≤ a.1 := tripLE_false_le (by simpa using htle)
        intro e he
        rcases List.mem_cons.mp he with rfl | he'
        · omega
        · have := ihm e he'
          omega

lemma heapWF_of_perm {parts : List (List (List Nat))} {tid : Nat}
    {h1 h2 : List (Nat × Nat × Nat)} (hp : h1.Perm h2) (hw : heapWF parts tid h1) :
    heapWF parts tid h2 := fun e he => hw e (hp.symm.subset he)

lemma heapRem_of_perm {parts : List (List (List Nat))} {tid : Nat}
    {h1 h2 : List (Nat × Nat × Nat)} (hp : h1.Perm h2) :
    heapRem parts tid h1 = heapRem parts tid h2 :=
  (hp.map _).sum_eq

lemma heapRem_cons {parts : List (List (List Nat))} {tid : Nat}
    (e : Nat × Nat × Nat) (rest : List (Nat × Nat × Nat)) :
    heapRem parts tid (e :: rest) =
      (((parts.getD e.2.1 []).getD tid []).length - e.2.2) + heapRem parts tid rest := by
  simp [heapRem]

lemma heapRem_append_single {parts : List (List (List Nat))} {tid : Nat}
    (rest : List (Nat × Nat × Nat)) (e : Nat × Nat × Nat) :
    heapRem parts tid (rest ++ [e]) =
      heapRem parts tid rest + (((parts.getD e.2.1 []).getD tid []).length - e.2.2) := by
  simp [heapRem]

lemma sorted_getD_le {l : List Nat} (hs : l.Sorted (· ≤ ·)) {j : Nat}
    (hj : j + 1 < l.length) : l.getD j 0 ≤ l.getD (j + 1) 0 := by
  rw [List.getD_eq_getElem l 0 (by omega), List.getD_eq_getElem l 0 hj]
  have := List.Sorted.rel_get_of_lt hs (a := ⟨j, by omega⟩) (b := ⟨j + 1, hj⟩)
    (by simp [Fin.lt_def])
  simpa [List.get_eq_getElem] using this

lemma mergeLoop_length {parts : List (List (List Nat))} {tid : Nat} :
    ∀ (fuel : Nat) (heap : List (Nat × Nat × Nat)), heapWF parts tid heap →
      heapRem parts tid heap ≤ fuel →
      (mergeLoop parts tid fuel heap).length = heapRem parts tid heap := by
  intro fuel
  induction fuel with
  | zero =>
    intro heap hw hr
    rw [mergeLoop]
    simp only [List.length_nil]
    omega
  | succ fuel ih =>
    intro heap hw hr
    cases hp : popMin heap with
    | none =>
      have : heap = [] := popMin_eq_none_iff.mp hp
      subst this
      simp [mergeLoop, popMin, heapRem]
    | some pr =>
      obtain ⟨⟨v, pIdx, j⟩, rest⟩ := pr
      simp only [mergeLoop, hp]
      have hperm := popMin_perm hp
      have hwc : heapWF parts tid ((v, pIdx, j) :: rest) := heapWF_of_perm hperm hw
      have hv := hwc (v, pIdx, j) (List.mem_cons_self _ _)
      have hwrest : heapWF parts tid rest := fun e he => hwc e (List.mem_cons_of_mem _ he)
      have hRc : heapRem parts tid heap = heapRem parts tid ((v, pIdx, j) :: rest) :=
        heapRem_of_perm hperm
      rw [heapRem_cons] at hRc
      dsimp only at hv hRc
      by_cases hj : j + 1 < ((parts.getD pIdx []).getD tid []).length
      · rw [if_pos hj]
        have hwrest' : heapWF parts tid
            (rest ++ [(((parts.getD pIdx []).getD tid []).getD (j + 1) 0, pIdx, j + 1)]) := by
          intro e he
          rcases List.mem_append.mp he with he1 | he2
          · exact hwrest e he1
          · have : e = (((parts.getD pIdx []).getD tid []).getD (j + 1) 0, pIdx, j + 1) := by
              simpa using he2
            subst this
            exact ⟨hj, rfl⟩
        have hRr : heapRem parts tid
            (rest ++ [(((parts.getD pIdx []).getD tid []).getD (j + 1) 0, pIdx, j + 1)]) =
            heapRem parts tid rest + (((parts.getD pIdx []).getD tid []).length - (j + 1)) := by
          rw [heapRem_append_single]
        rw [List.length_cons, ih _ hwrest' (by omega), hRr]
        omega
      · rw [if_neg hj]
        rw [List.length_cons, ih _ hwrest (by omega)]
        omega

lemma mergeLoop_sorted {parts : List (List (List Nat))} {tid : Nat}
    (hsort : ∀ i : Nat, ((parts.getD i []).getD tid []).Sorted (· ≤ ·)) :
    ∀ (fuel : Nat) (heap : List (Nat × Nat × Nat)), heapWF parts tid heap →
      (mergeLoop parts tid fuel heap).Sorted (· ≤ ·) ∧
      ∀ x ∈ mergeLoop parts tid fuel heap, ∃ e ∈ heap, e.1 ≤ x := by
  intro fuel
  induction fuel with
  | zero =>
    intro heap hw
    rw [mergeLoop]
    simp
  | succ fuel ih =>
    intro heap hw
    cases hp : popMin heap with
    | none =>
      simp only [mergeLoop, hp]
      simp
    | some pr =>
      obtain ⟨⟨v, pIdx, j⟩, rest⟩ := pr
      simp only [mergeLoop, hp]
      have hperm := popMin_perm hp
      have hwc : heapWF parts tid ((v, pIdx, j) :: rest) := heapWF_of_perm hperm hw
      have hv := hwc (v, pIdx, j) (List.mem_cons_self _ _)
      dsimp only at hv
      have hwrest : heapWF parts tid rest := fun e he => hwc e (List.mem_cons_of_mem _ he)
      have hmin := popMin_min hp
      have hvheap : (v, pIdx, j) ∈ heap := hperm.symm.subset (List.mem_cons_self _ _)
      have hwrest' : heapWF parts tid
          (if j + 1 < ((parts.getD pIdx []).getD tid []).length
           then rest ++ [(((parts.getD pIdx []).getD tid []).getD (j + 1) 0, pIdx, j + 1)]
           else rest) := by
        by_cases hj : j + 1 < ((parts.getD pIdx []).getD tid []).length
        · rw [if_pos hj]
          intro e he
          rcases List.mem_append.mp he with he1 | he2
          · exact hwrest e he1
          · have : e = (((parts.getD pIdx []).getD tid []).getD (j + 1) 0, pIdx, j + 1) := by
              simpa using he2
            subst this
            exact ⟨hj, rfl⟩
        · rw [if_neg hj]
          exact hwrest
      have hge : ∀ e ∈ (if j + 1 < ((parts.getD pIdx []).getD tid []).length
          then rest ++ [(((parts.getD pIdx []).getD tid []).getD (j + 1) 0, pIdx, j + 1)]
          else rest), v ≤ e.1 := by
        by_cases hj : j + 1 < ((parts.getD pIdx []).getD tid []).length
        · rw [if_pos hj]
          intro e he
          rcases List.mem_append.mp he with he1 | he2
          · exact hmin e (hperm.symm.subset (List.mem_cons_of_mem _ he1))
          · have : e = (((parts.getD pIdx []).getD tid []).getD (j + 1) 0, pIdx, j + 1) := by
              simpa using he2
            subst this
            have := sorted_getD_le (hsort pIdx) hj
            dsimp only
            omega
        · rw [if_neg hj]
          intro e he
          exact hmin e (hperm.symm.subset (List.mem_cons_of_mem _ he))
      obtain ⟨htail_sorted, htail⟩ := ih _ hwrest'
      have hvx : ∀ x ∈ mergeLoop parts tid fuel
          (if j + 1 < ((parts.getD pIdx []).getD tid []).length
           then rest ++ [(((parts.getD pIdx []).getD tid []).getD (j + 1) 0, pIdx, j + 1)]
           else rest), v ≤ x := by
        intro x hx
        obtain ⟨e, he, hex⟩ := htail x hx
        have := hge e he
        omega
      constructor
      · exact List.sorted_cons.mpr ⟨hvx, htail_sorted⟩
      · intro x hx
        rcases List.mem_cons.mp hx with rfl | hx'
        · exact ⟨(x, pIdx, j), hvheap, le_refl _⟩
        · exact ⟨(v, pIdx, j), hvheap, hvx x hx'⟩

lemma mergeInitAux_spec (tid : Nat) :
    ∀ (ps : List (List (List Nat))) (pIdx : Nat) (heap : List (Nat × Nat × Nat)),
      (∀ q ∈ ps, q ≠ [] ∧ tid < q.length ∧ q.getD tid [] ≠ []) →
      mergeInitAux tid ps pIdx heap =
        some (heap ++ (List.range ps.length).map
          (fun k => (((ps.getD k []).getD tid []).getD 0 0, pIdx + k, 0))) := by
  intro ps
  induction ps with
  | nil =>
    intro pIdx heap h
    simp [mergeInitAux]
  | cons q rest ih =>
    intro pIdx heap h
    obtain ⟨hne, htid, hsub⟩ := h q (List.mem_cons_self _ _)
    have hrest := fun a ha => h a (List.mem_cons_of_mem q ha)
    have hq : q.isEmpty = false := by
      cases q with
      | nil => exact absurd rfl hne
      | cons x xs => rfl
    obtain ⟨v, s, hvs⟩ := List.exists_cons_of_ne_nil hsub
    have hstep : mergeInitAux tid (q :: rest) pIdx heap =
        mergeInitAux tid rest (pIdx + 1) (heap ++ [(v, pIdx, 0)]) := by
      simp only [mergeInitAux, hq, Bool.false_eq_true, if_false, if_pos htid, hvs]
    rw [hstep, ih (pIdx + 1) (heap ++ [(v, pIdx, 0)]) hrest]
    apply congrArg some
    rw [List.append_assoc, List.singleton_append, List.length_cons,
      List.range_succ_eq_map, List.map_cons, List.map_map]
    have hhead : ((((q :: rest).getD 0 []).getD tid []).getD 0 0, pIdx + 0, (0 : Nat)) =
        (v, pIdx, 0) := by
      rw [List.getD_cons_zero, hvs, List.getD_cons_zero, Nat.add_zero]
    have htail : (List.range rest.length).map
          ((fun k => ((((q :: rest).getD k []).getD tid []).getD 0 0, pIdx + k, (0 : Nat))) ∘
            Nat.succ) =
        (List.range rest.length).map
          (fun k => (((rest.getD k []).getD tid []).getD 0 0, pIdx + 1 + k, (0 : Nat))) := by
      apply List.map_congr_left
      intro k _
      simp only [Function.comp_apply, List.getD_cons_succ]
      have harith : pIdx + Nat.succ k = pIdx + 1 + k := by omega
      rw [harith]
    rw [hhead, htail]

lemma map_getD_range_sum (l : List (List (List Nat))) (tid : Nat) :
    ((List.range l.length).map (fun i => ((l.getD i []).getD tid []).length)).sum =
      totalLen l tid := by
  rw [totalLen]
  induction l with
  | nil => rfl
  | cons a t ih =>
    rw [List.length_cons, List.range_succ_eq_map, List.map_cons, List.map_map, List.map_cons,
      List.sum_cons, List.sum_cons, List.getD_cons_zero]
    have htl : (List.range t.length).map
          ((fun i => (((a :: t).getD i []).getD tid []).length) ∘ Nat.succ) =
        (List.range t.length).map (fun i => ((t.getD i []).getD tid []).length) := by
      apply List.map_congr_left
      intro k _
      simp [List.getD_cons_succ]
    rw [htl, ih]

/-- Full specification of one worker's k-way merge under the conditions the
source's initialization needs: every block's bucket list is non-empty, `tid`
indexes into it, every contributed sub-slice is non-empty and sorted.  Then
the merge succeeds, its output is sorted, and its length is the sum of the
sub-slice lengths. -/
lemma kwayMerge_spec (parts : List (List (List Nat))) (tid : Nat)
    (hgood : ∀ i, i < parts.length → parts.getD i [] ≠ [] ∧ tid < (parts.getD i []).length ∧
      (parts.getD i []).getD tid [] ≠ [])
    (hsort : ∀ i, i < parts.length → ((parts.getD i []).getD tid []).Sorted (· ≤ ·)) :
    ∃ out, kwayMerge parts tid = some out ∧ out.Sorted (· ≤ ·) ∧
      out.length = totalLen parts tid := by
  have hmem : ∀ q ∈ parts, q ≠ [] ∧ tid < q.length ∧ q.getD tid [] ≠ [] := by
    intro q hq
    obtain ⟨i, hil, hqi⟩ := List.mem_iff_getElem.mp hq
    have := hgood i hil
    rwa [List.getD_eq_getElem parts [] hil, hqi] at this
  have hsort' : ∀ i : Nat, ((parts.getD i []).getD tid []).Sorted (· ≤ ·) := by
    intro i
    by_cases hi : i < parts.length
    · exact hsort i hi
    · rw [List.getD_eq_default parts [] (by omega)]
      simp
  have hinit : mergeInit parts tid =
      some ((List.range parts.length).map
        (fun k => (((parts.getD k []).getD tid []).getD 0 0, k, 0))) := by
    rw [mergeInit, mergeInitAux_spec tid parts 0 [] hmem, List.nil_append]
    apply congrArg some
    apply List.map_congr_left
    intro k _
    rw [Nat.zero_add]
  set h0 : List (Nat × Nat × Nat) := (List.range parts.length).map
    (fun k => (((parts.getD k []).getD tid []).getD 0 0, k, 0)) with hh0
  have hwf : heapWF parts tid h0 := by
    intro e he
    rw [hh0] at he
    obtain ⟨k, hk, rfl⟩ := List.mem_map.mp he
    have hkl : k < parts.length := List.mem_range.mp hk
    have := (hgood k hkl).2.2
    dsimp only
    constructor
    · have : ((parts.getD k []).getD tid []).length ≠ 0 := by
        intro hz
        exact this (List.length_eq_zero.mp hz)
      omega
    · rfl
  have hrem : heapRem parts tid h0 = totalLen parts tid := by
    rw [heapRem, hh0, List.map_map]
    rw [← map_getD_range_sum parts tid]
    apply congrArg List.sum
    apply List.map_congr_left
    intro k _
    simp
  have hlen := mergeLoop_length (totalLen parts tid + 1) h0 hwf (by omega)
  have hsorted := mergeLoop_sorted hsort' (totalLen parts tid + 1) h0 hwf
  refine ⟨mergeLoop parts tid (totalLen parts tid + 1) h0, ?_, hsorted.1, by omega⟩
  simp only [kwayMerge, hinit]

lemma phase2_eq_none (sortedBlocks : List (List Nat)) : phase2 sortedBlocks = none := by
  rw [phase2]
  cases h : sortBlock ((sortedBlocks.map sampleBlock).foldr (· ++ ·) []) with
  | none => rfl
  | some sortedSamples => exact collectPivots_eq_none sortedSamples

/-- `psrs` aborts on every input: thread 0's pivot collection underflows. -/
lemma psrs_eq_none (data : List Nat) : psrs data = none := by
  rw [psrs]
  cases h : phase1 data with
  | none => rfl
  | some sortedBlocks =>
    show (match phase2 sortedBlocks with
      | none => none
      | some pivots => phase3to5 data sortedBlocks pivots) = none
    rw [phase2_eq_none]

lemma sampleBlock_length (chunk : List Nat) : (sampleBlock chunk).length = P := by
  rw [sampleBlock]
  simp

lemma sampleBlock_getD (chunk : List Nat) (i : Nat) (hi : i < P) :
    (sampleBlock chunk).getD i 0 =
      if i * OMEGA + 1 < chunk.length then chunk.getD (i * OMEGA + 1) 0 else 0 := by
  rw [sampleBlock]
  have hlen : i < ((List.range P).map (fun k =>
      if k * OMEGA + 1 < chunk.length then chunk.getD (k * OMEGA + 1) 0 else 0)).length := by
    simpa using hi
  rw [List.getD_eq_getElem _ 0 hlen]
  simp

lemma blocks_partition_exact (data : List Nat) (i j : Nat) (hN : 9000 ≤ data.length)
    (hi : i + 1 < P) (_hj : j < P) :
    sliceStart 0 = 0 ∧ sliceEnd data i = sliceStart (i + 1) ∧
    sliceEnd data (P - 1) = data.length ∧ sliceStart j ≤ sliceEnd data j ∧
    ((List.range P).map (fun k => sliceEnd data k - sliceStart k)).sum = data.length := by
  have hP : P = 10 := rfl
  have hP9 : P - 1 = 9 := rfl
  have hbl : block_len = 1000 := rfl
  have hterm : ∀ k, k < 9 → sliceEnd data k - sliceStart k = 1000 := by
    intro k hk
    rw [sliceEnd, if_neg (by omega), sliceStart, hbl]
    omega
  have hlast : sliceEnd data 9 - sliceStart 9 = data.length - 9000 := by
    have h1 : sliceEnd data 9 = data.length := by
      rw [sliceEnd, if_pos (show (9 : Nat) = P - 1 from rfl)]
    have h2 : sliceStart 9 = 9000 := by
      rw [sliceStart, hbl]
    omega
  refine ⟨by simp [sliceStart], ?_, ?_, ?_, ?_⟩
  · rw [sliceEnd, if_neg (by omega), sliceStart]
  · rw [sliceEnd, if_pos rfl]
  · rw [sliceStart, sliceEnd]
    by_cases h9 : j = P - 1
    · rw [if_pos h9, h9, hP9, hbl]
      omega
    · rw [if_neg h9, hbl]
      omega
  · have hsum9 : ∀ n, n ≤ 9 →
        ((List.range n).map (fun k => sliceEnd data k - sliceStart k)).sum = n * 1000 := by
      intro n
      induction n with
      | zero => intro _; simp
      | succ m ih =>
        intro hm
        rw [List.range_succ, List.map_append, List.sum_append, ih (by omega),
          List.map_singleton, List.sum_singleton, hterm m (by omega)]
        omega
    have hsplit : List.range P = List.range 9 ++ [9] := rfl
    rw [hsplit, List.map_append, List.sum_append, hsum9 9 (by omega),
      List.map_singleton, List.sum_singleton, hlast]
    omega

/-!
## Claim theorems
-/

/-- Claim C1 (code_bug): the claim states that for every input array and valid
partition count, `psrs` terminates with the array holding a non-decreasing
permutation of its initial contents.  In the code, thread 0's pivot-collection
loop `for i in 0..P { pivot_ref[i - 1] = ... }` computes the `usize` index
`0 - 1` on its first iteration, which underflows and aborts, so `psrs` never
completes on any input and never produces sorted output. -/
theorem psrs_always_aborts : ∀ data : List Nat, psrs data = none :=
  psrs_eq_none

/-- Claim C2 (code_bug): the pivot-selection step is claimed to store pivot
`k` = sorted sample at index `(k+1)*P` for every `k ∈ [0, P-1)` with no
out-of-bounds or underflowing index computation.  The loop `for i in 0..P`
writes `pivot_ref[i - 1]`; its first iteration (`i = 0`) underflows `usize`,
so pivot collection aborts on every sample set before storing anything. -/
theorem collectPivots_always_underflows :
    ∀ samples : List Nat, collectPivots samples = none :=
  collectPivots_eq_none

/-- Claim C3 (confirmed): on every sorted block and every pivot, the boundary
`ind` computed from `chunk.binary_search(&pivot_val)` (embedded from Rust
std's current branchless implementation) equals the count of chunk elements
`≤ pivot` — equivalently the first index whose value strictly exceeds the
pivot — including blocks with duplicate copies of the pivot value, so every
element equal to a pivot lands in the lower bucket. -/
theorem bucketBoundary_counts_le (chunk : List Nat) (pivot_val : Nat)
    (hs : chunk.Sorted (· ≤ ·)) :
    bucketBoundary chunk pivot_val = countLe chunk pivot_val :=
  bucketBoundary_eq chunk pivot_val hs

/-- Witness for C3 on a concrete sorted block holding three copies of the
pivot value `5`: the boundary is `4`, the number of elements `≤ 5`. -/
theorem bucketBoundary_counts_le_witness :
    ([2, 5, 5, 5, 9] : List Nat).Sorted (· ≤ ·) ∧
    bucketBoundary [2, 5, 5, 5, 9] 5 = countLe [2, 5, 5, 5, 9] 5 ∧
    bucketBoundary [2, 5, 5, 5, 9] 5 = 4 :=
  ⟨by decide, bucketBoundary_counts_le [2, 5, 5, 5, 9] 5 (by decide),
    by simp [bucketBoundary, binary_search, binarySearchLoop]⟩

/-- Counterexample for claim C4 as stated: a bucket whose contributed
sub-slices are sorted (`[1]` from block 0, the empty sub-slice from block 1)
but where the k-way merger aborts (out-of-bounds head access) instead of
producing a sorted run of the summed length `1`. -/
theorem kwayMerge_aborts_on_empty_subslice :
    kwayMerge [[[1], [2, 2]], [[], [3]]] 0 = none := rfl

/-- Claim C4 (corrected): provided every block's bucket list is non-empty,
the bucket index is in range, and every contributed sub-slice is non-empty
(the case the broken `is_empty` guard never skips) and sorted, the k-way
merge of bucket `tid` succeeds, its output run is sorted non-decreasing, and
its length equals the sum of the contributing sub-slice lengths. -/
theorem kwayMerge_sorted_and_total_length (parts : List (List (List Nat))) (tid : Nat)
    (hgood : ∀ i, i < parts.length → parts.getD i [] ≠ [] ∧
      tid < (parts.getD i []).length ∧ (parts.getD i []).getD tid [] ≠ [])
    (hsort : ∀ i, i < parts.length → ((parts.getD i []).getD tid []).Sorted (· ≤ ·)) :
    ∃ out, kwayMerge parts tid = some out ∧ out.Sorted (· ≤ ·) ∧
      out.length = totalLen parts tid :=
  kwayMerge_spec parts tid hgood hsort

/-- Witness for C4 at the spec's example: `[1,4,7]`, `[2,2,5]`, `[3,6]` merge
to `[1,2,2,3,4,5,6,7]`, of length `3 + 3 + 2 = 8`. -/
theorem kwayMerge_sorted_and_total_length_witness :
    kwayMerge [[[1, 4, 7]], [[2, 2, 5]], [[3, 6]]] 0 = some [1, 2, 2, 3, 4, 5, 6, 7] ∧
    totalLen [[[1, 4, 7]], [[2, 2, 5]], [[3, 6]]] 0 = 8 ∧
    (∃ out, kwayMerge [[[1, 4, 7]], [[2, 2, 5]], [[3, 6]]] 0 = some out ∧
      out.Sorted (· ≤ ·) ∧ out.length = totalLen [[[1, 4, 7]], [[2, 2, 5]], [[3, 6]]] 0) :=
  ⟨rfl, by decide,
    kwayMerge_sorted_and_total_length [[[1, 4, 7]], [[2, 2, 5]], [[3, 6]]] 0
      (by decide) (by decide)⟩

/-- Claim C5 (code_bug): initialization is claimed to push the head of every
non-empty sub-slice only, never indexing element 0 of an empty sub-slice.
The code's guard `!partition.is_empty()` tests the *outer* per-block bucket
list (which always has length `P`, never empty), so for a bucket to which a
block contributes an empty sub-slice the head access `partition[thread_id][0]`
is out of bounds and the worker aborts — here at block 1, bucket 0. -/
theorem mergeInit_indexes_empty_subslice :
    mergeInit [[[1], [2]], [[], [3]]] 0 = none := rfl

/-- Counterexample for claim C6 as stated: on the one-element block `[7]` the
spec's clamped formula `min(i*omega + 1, block_len - 1)` samples the element
`7` into all `P` slots, but the code skips every out-of-range offset, leaving
all `P` sample slots at their initial value `0`. -/
theorem sampleBlock_skips_instead_of_clamping :
    sampleBlock [7] = List.replicate P 0 ∧ specSampleBlock [7] = List.replicate P 7 ∧
    sampleBlock [7] ≠ specSampleBlock [7] :=
  ⟨by decide, by decide, by decide⟩

/-- Claim C6 (corrected): the sampler always emits `P` slots; slot `i` holds
the block element at offset `i*OMEGA + 1` (with `OMEGA = ARRAY_LEN/(P*P)` a
compile-time constant, not `block_len/P`) when that offset is in range, and
otherwise keeps the initial value `0` — the offset is skipped, not clamped. -/
theorem sampleBlock_formula (chunk : List Nat) (i : Nat) (hi : i < P) :
    (sampleBlock chunk).length = P ∧
    (sampleBlock chunk).getD i 0 =
      if i * OMEGA + 1 < chunk.length then chunk.getD (i * OMEGA + 1) 0 else 0 :=
  ⟨sampleBlock_length chunk, sampleBlock_getD chunk i hi⟩

/-- Witness for C6 on the block `[4, 9, 6]`: sample 0 reads offset 1. -/
theorem sampleBlock_formula_witness :
    (0 : Nat) < P ∧
    ((sampleBlock [4, 9, 6]).length = P ∧
      (sampleBlock [4, 9, 6]).getD 0 0 =
        if 0 * OMEGA + 1 < ([4, 9, 6] : List Nat).length then
          ([4, 9, 6] : List Nat).getD (0 * OMEGA + 1) 0 else 0) ∧
    (sampleBlock [4, 9, 6]).getD 0 0 = 9 :=
  ⟨by decide, sampleBlock_formula [4, 9, 6] 0 (by decide), by decide⟩

/-- Counterexample for claim C7 as stated: the empty array does not return
immediately with no work performed — slicing block 0 as `data[0..1000]` is
out of range for it, so the sort aborts. -/
theorem mkBlocks_empty_input_aborts : mkBlocks [] = none := rfl

/-- Claim C7 (corrected): the code has no clamping or degenerate-case
short-circuiting at all: a zero-length block underflows `chunk.len() - 1` at
the quicksort call (`sortBlock [] = none`), and `psrs` on the empty array
aborts rather than returning it unchanged. -/
theorem no_degenerate_case_handling : sortBlock [] = none ∧ psrs [] = none :=
  ⟨rfl, psrs_eq_none []⟩

/-- Counterexample for claim C8 as stated: for input length `N = 9500` the
claimed formula ends block 0 at `min(1*⌈9500/10⌉, 9500) = 950`, but the code
ends block 0 at `1000`, computed from the compile-time `ARRAY_LEN`, not from
`N`. -/
theorem blockEnd_differs_from_ceil_formula :
    sliceEnd (List.replicate 9500 0) 0 = 1000 ∧ specBlockEnd 9500 0 = 950 ∧
    sliceEnd (List.replicate 9500 0) 0 ≠ specBlockEnd 9500 0 :=
  ⟨rfl, rfl, by decide⟩

/-- Claim C8 (corrected): block `i < P-1` covers `[i*B, (i+1)*B)` with
`B = ARRAY_LEN/P = 1000` fixed at compile time, and the last block covers
`[(P-1)*B, N)`; for every input length `N ≥ (P-1)*B` the blocks partition the
input exactly — contiguous (no gaps, no overlap), lengths summing to `N`,
the last block absorbing the remainder.  The claimed `⌈N/P⌉` formula holds
only in the special case `N = ARRAY_LEN` (see the witness). -/
theorem blocks_partition_exactly (data : List Nat) (i j : Nat) (hN : 9000 ≤ data.length)
    (hi : i + 1 < P) (hj : j < P) :
    sliceStart 0 = 0 ∧ sliceEnd data i = sliceStart (i + 1) ∧
    sliceEnd data (P - 1) = data.length ∧ sliceStart j ≤ sliceEnd data j ∧
    ((List.range P).map (fun k => sliceEnd data k - sliceStart k)).sum = data.length :=
  blocks_partition_exact data i j hN hi hj

/-- Witness for C8 at `N = ARRAY_LEN = 10000`, where the code's block bounds
also agree with the spec's `⌈N/P⌉` formula. -/
theorem blocks_partition_exactly_witness :
    9000 ≤ (List.replicate 10000 0).length ∧ 3 + 1 < P ∧ 9 < P ∧
    (sliceStart 0 = 0 ∧
      sliceEnd (List.replicate 10000 0) 3 = sliceStart (3 + 1) ∧
      sliceEnd (List.replicate 10000 0) (P - 1) = (List.replicate 10000 0).length ∧
      sliceStart 9 ≤ sliceEnd (List.replicate 10000 0) 9 ∧
      ((List.range P).map (fun k =>
        sliceEnd (List.replicate 10000 0) k - sliceStart k)).sum =
        (List.replicate 10000 0).length) ∧
    sliceEnd (List.replicate 10000 0) 3 = specBlockEnd 10000 3 :=
  ⟨by rw [List.length_replicate]; decide, by decide, by decide,
    blocks_partition_exactly (List.replicate 10000 0) 3 9
      (by rw [List.length_replicate]; decide) (by decide) (by decide),
    rfl⟩

/-- Counterexample for claim C9 as stated: the claim puts the safety threshold
at `(P-1)*(ARRAY_LEN/P) + P = 9010` and asserts every shorter input makes
some block slicing or block-local operation go out of bounds; but for input
length `9001 < 9010` the whole block phase (slicing and local quicksort)
succeeds with no out-of-bounds access. -/
theorem blockPhase_succeeds_below_claimed_bound :
    (phase1 (List.replicate 9001 0)).isSome = true ∧
    9001 < (P - 1) * (ARRAY_LEN / P) + P :=
  ⟨phase1_isSome_iff.mpr (by rw [List.length_replicate]), by decide⟩

/-- Claim C9 (corrected): `psrs` does derive its block length, sample stride
and scratch sizes from the compile-time `ARRAY_LEN` and `P`, but the correct
threshold for the block phase is `(P-1)*(ARRAY_LEN/P) + 1 = 9001`: the block
slicing and per-block quicksort calls are in bounds exactly when the argument
is at least that long (shorter inputs fault in the slicing for length < 9000,
or in `chunk.len() - 1` on the empty last block at length 9000). -/
theorem phase1_inbounds_iff_length :
    ∀ data : List Nat, (phase1 data).isSome = true ↔
      (P - 1) * (ARRAY_LEN / P) + 1 ≤ data.length := by
  intro data
  have hc : (P - 1) * (ARRAY_LEN / P) + 1 = 9001 := by decide
  rw [hc]
  exact phase1_isSome_iff

/-- Claim C10 (confirmed): for `low ≤ high < data.len()`, `thread_quicksort`
terminates — each recursive call is on a strictly smaller index interval, so
fuel `high - low + 1` always suffices. -/
theorem thread_quicksort_terminates (data : List Nat) (low high : Nat)
    (_h1 : low ≤ high) (_h2 : high < data.length) :
    (thread_quicksort (high - low + 1) data low high).isSome = true :=
  thread_quicksort_isSome (high - low + 1) data low high (by omega)

/-- Witness for C10 on the concrete slice `[3, 1, 2]` with the full range. -/
theorem thread_quicksort_terminates_witness :
    (0 : Nat) ≤ 2 ∧ 2 < ([3, 1, 2] : List Nat).length ∧
    (thread_quicksort (2 - 0 + 1) [3, 1, 2] 0 2).isSome = true :=
  ⟨by decide, by decide, thread_quicksort_terminates [3, 1, 2] 0 2 (by decide) (by decide)⟩

end PSRS
